import Mathlib

/-!
Verification of the Parameta repository (rates.py and stdev.py).

The two pipelines are embedded shallowly:

* `ratesProcess` models `RatesProcessor.process` (src/rates_test/scripts/rates.py):
  stable sort of the price and spot tables by `(timestamp, ccy_pair)`, the
  backward as-of join with one hour tolerance (`pd.merge_asof`), the left
  join of conversion rules, the boolean coercion of `convert_price`, the
  vectorized `new_price` computation, and the inclusive window filter.
* `stdevProcess` models `StdDevProcessor.process` (src/stdev_test/scripts/stdev.py):
  stable sort by `(security_id, snap_time)`, per-group rolling sample
  standard deviations of `bid`, `mid`, `ask` over 20-row windows gated by the
  hourly contiguity mask, the `gap_blocked` diagnostic, and the window filter.

Numeric cells are modelled by `PVal`: pandas scalar cells are IEEE doubles
where both `NaN` and `pd.NA` count as missing (`isna`), division by zero
produces a signed infinity (it does not raise), and any operation on a
missing value propagates missingness.  Finite values are carried exactly as
rationals; float rounding is not modelled (no claim depends on rounding).
Timestamps are `Option Int` (seconds since an epoch; `none` is `NaT`).
Rolling standard deviation columns carry the exact sample variance (the
square of the standard deviation) as payload: pandas' `.std()` is the
square root of `.var()`, a strictly monotone bijection on nonnegative
reals, so a stdev cell is null exactly when the variance payload here is
`none`, and its value is determined by the payload.
-/

namespace Parameta

/-- A pandas numeric cell: missing (`NaN`/`pd.NA`), `+inf`, `-inf`, or a finite
value (carried exactly as a rational). -/
inductive PVal where
  | null : PVal
  | pinf : PVal
  | ninf : PVal
  | num : ℚ → PVal
deriving DecidableEq

/-- `pd.isna` on a cell: true exactly for the missing value. -/
def PVal.isna : PVal → Bool
  | .null => true
  | _ => false

/-- IEEE-style addition on cells: missing propagates, `inf + -inf` is `NaN`
(missing), infinities absorb finite values, finite values add exactly. -/
def PVal.add : PVal → PVal → PVal
  | .null, _ => .null
  | _, .null => .null
  | .pinf, .ninf => .null
  | .pinf, _ => .pinf
  | .ninf, .pinf => .null
  | .ninf, _ => .ninf
  | .num _, .pinf => .pinf
  | .num _, .ninf => .ninf
  | .num a, .num b => .num (a + b)

/-- IEEE-style division on cells, as numpy performs it elementwise (it warns
but does not raise): `x / 0` is a signed infinity for nonzero finite `x`,
`0 / 0` is `NaN` (missing), missing propagates, finite division is exact. -/
def PVal.div : PVal → PVal → PVal
  | .null, _ => .null
  | _, .null => .null
  | .num a, .num b =>
      if b = 0 then (if a = 0 then .null else if 0 < a then .pinf else .ninf)
      else .num (a / b)
  | .num _, .pinf => .num 0
  | .num _, .ninf => .num 0
  | .pinf, .num b => if 0 ≤ b then .pinf else .ninf
  | .ninf, .num b => if 0 ≤ b then .ninf else .pinf
  | .pinf, _ => .null
  | .ninf, _ => .null

/-! ### Rates pipeline: record types (rates.py) -/

/-- A row of the price table: `timestamp` (datetime, `none` is `NaT`),
`ccy_pair` (categorical key, abstracted to `Nat`), `price`. -/
structure PriceRow where
  timestamp : Option Int
  ccy_pair : Nat
  price : PVal
deriving DecidableEq

/-- A row of the spot table: `timestamp`, `ccy_pair`, `spot_mid_rate`. -/
structure SpotRow where
  timestamp : Option Int
  ccy_pair : Nat
  spot_mid_rate : PVal
deriving DecidableEq

/-- A row of the currency conversion rule table (`rates_ccy_data.csv`). -/
structure CcyRule where
  ccy_pair : Nat
  convert_price : Bool
  conversion_factor : PVal
deriving DecidableEq

/-- A price row after the as-of merge with the spot table: `spot_mid_rate` is
the matched spot row's rate, or missing when no spot row matched. -/
structure AlignedRow where
  timestamp : Option Int
  ccy_pair : Nat
  price : PVal
  spot_mid_rate : PVal
deriving DecidableEq

/-- An aligned row after the left join with the conversion rules:
`convert_price` is `none` when no rule matched the pair (pandas leaves `NaN`
in the column). -/
structure RuleMergedRow where
  timestamp : Option Int
  ccy_pair : Nat
  price : PVal
  spot_mid_rate : PVal
  convert_price : Option Bool
  conversion_factor : PVal
deriving DecidableEq

/-- A fully converted output row of the rates pipeline. -/
structure ConvRow where
  timestamp : Option Int
  ccy_pair : Nat
  price : PVal
  spot_mid_rate : PVal
  convert_price : Bool
  conversion_factor : PVal
  new_price : PVal
deriving DecidableEq

/-- `merged['convert_price'].astype(bool)` (rates.py line 80): after the left
join an unmatched rule leaves `NaN` in the column, and Python's `bool(nan)`
is `True`, so the missing value is coerced to `true`. -/
def astypeBool (o : Option Bool) : Bool := o.getD true

/-- The vectorized `new_price` computation (rates.py lines 85-95): rows
without a spot match (missing `spot_mid_rate`) keep the initial `pd.NA`;
rows with a match copy `price` when `convert_price` is false, and compute
`price / conversion_factor + spot_mid_rate` when it is true. -/
def newPrice (price spot_mid_rate : PVal) (convert : Bool) (factor : PVal) : PVal :=
  if spot_mid_rate.isna then PVal.null
  else if convert then (price.div factor).add spot_mid_rate
  else price

/-! ### Stable sorting (pandas `sort_values`)

`sort_values(['timestamp','ccy_pair'], kind='mergesort')` in rates.py and
`sort_values(['security_id','snap_time'])` in stdev.py (multi-column sorts
use numpy's stable `lexsort`) are stable lexicographic sorts with `NaT`
placed last (`na_position='last'`).  They are modelled with Mathlib's
`List.insertionSort`, which is stable, over the corresponding total
preorders; `NaT`-last ordering is `optKeyLe` below. -/

/-- Sort-key order on nullable timestamps: `NaT` sorts last
(`na_position='last'`), strict version. -/
def optKeyLt : Option Int → Option Int → Prop
  | some a, some b => a < b
  | some _, none => True
  | none, _ => False

/-- Sort-key order on nullable timestamps: `NaT` sorts last, weak version. -/
def optKeyLe : Option Int → Option Int → Prop
  | some a, some b => a ≤ b
  | some _, none => True
  | none, some _ => False
  | none, none => True

instance : DecidableRel optKeyLt := fun a b =>
  match a, b with
  | some x, some y => inferInstanceAs (Decidable (x < y))
  | some _, none => .isTrue trivial
  | none, some _ => .isFalse (fun h => h)
  | none, none => .isFalse (fun h => h)

instance : DecidableRel optKeyLe := fun a b =>
  match a, b with
  | some x, some y => inferInstanceAs (Decidable (x ≤ y))
  | some _, none => .isTrue trivial
  | none, some _ => .isFalse (fun h => h)
  | none, none => .isTrue trivial

theorem optKeyLe_refl (a : Option Int) : optKeyLe a a := by
  cases a <;> simp [optKeyLe]

theorem optKeyLe_trans {a b c : Option Int} (h₁ : optKeyLe a b) (h₂ : optKeyLe b c) :
    optKeyLe a c := by
  cases a <;> cases b <;> cases c <;> simp [optKeyLe] at * <;> omega

theorem optKeyLe_total (a b : Option Int) : optKeyLe a b ∨ optKeyLe b a := by
  cases a <;> cases b <;> simp [optKeyLe] <;> omega

theorem optKeyLt_trichotomy (a b : Option Int) : optKeyLt a b ∨ a = b ∨ optKeyLt b a := by
  cases a <;> cases b <;> simp [optKeyLt] <;> omega

theorem optKeyLt_trans {a b c : Option Int} (h₁ : optKeyLt a b) (h₂ : optKeyLt b c) :
    optKeyLt a c := by
  cases a <;> cases b <;> cases c <;> simp [optKeyLt] at * <;> omega

theorem optKeyLt_le {a b : Option Int} (h : optKeyLt a b) : optKeyLe a b := by
  cases a <;> cases b <;> simp [optKeyLt, optKeyLe] at * <;> omega

theorem optKeyLt_of_lt_of_le {a b c : Option Int} (h₁ : optKeyLt a b) (h₂ : optKeyLe b c) :
    optKeyLt a c := by
  cases a <;> cases b <;> cases c <;> simp [optKeyLt, optKeyLe] at * <;> omega

theorem optKeyLt_of_le_of_lt {a b c : Option Int} (h₁ : optKeyLe a b) (h₂ : optKeyLt b c) :
    optKeyLt a c := by
  cases a <;> cases b <;> cases c <;> simp [optKeyLt, optKeyLe] at * <;> omega

/-- Lexicographic sort order by `(timestamp, ccy_pair)` used for the price
and spot tables (rates.py lines 61-62). -/
def tpLe {α : Type} (ts : α → Option Int) (pr : α → Nat) (a b : α) : Prop :=
  optKeyLt (ts a) (ts b) ∨ (ts a = ts b ∧ pr a ≤ pr b)

instance {α : Type} (ts : α → Option Int) (pr : α → Nat) : DecidableRel (tpLe ts pr) :=
  fun a b => inferInstanceAs (Decidable (optKeyLt (ts a) (ts b) ∨ (ts a = ts b ∧ pr a ≤ pr b)))

instance {α : Type} (ts : α → Option Int) (pr : α → Nat) : IsTotal α (tpLe ts pr) := by
  constructor
  intro a b
  rcases optKeyLt_trichotomy (ts a) (ts b) with h | h | h
  · exact Or.inl (Or.inl h)
  · rcases Nat.le_total (pr a) (pr b) with hp | hp
    · exact Or.inl (Or.inr ⟨h, hp⟩)
    · exact Or.inr (Or.inr ⟨h.symm, hp⟩)
  · exact Or.inr (Or.inl h)

instance {α : Type} (ts : α → Option Int) (pr : α → Nat) : IsTrans α (tpLe ts pr) := by
  constructor
  intro a b c hab hbc
  rcases hab with hab | ⟨hab, hab'⟩ <;> rcases hbc with hbc | ⟨hbc, hbc'⟩
  · exact Or.inl (optKeyLt_trans hab hbc)
  · exact Or.inl (hbc ▸ hab)
  · exact Or.inl (hab ▸ hbc)
  · exact Or.inr ⟨hab.trans hbc, hab'.trans hbc'⟩

theorem tpLe_ts {α : Type} {ts : α → Option Int} {pr : α → Nat} {a b : α}
    (h : tpLe ts pr a b) : optKeyLe (ts a) (ts b) := by
  rcases h with h | ⟨h, _⟩
  · exact optKeyLt_le h
  · rw [h]; exact optKeyLe_refl _

/-- Lexicographic sort order by `(security_id, snap_time)` used for the
security snapshot table (stdev.py line 81). -/
def stLe {α : Type} (sec : α → Nat) (ts : α → Option Int) (a b : α) : Prop :=
  sec a < sec b ∨ (sec a = sec b ∧ optKeyLe (ts a) (ts b))

instance {α : Type} (sec : α → Nat) (ts : α → Option Int) : DecidableRel (stLe sec ts) :=
  fun a b => inferInstanceAs (Decidable (sec a < sec b ∨ (sec a = sec b ∧ optKeyLe (ts a) (ts b))))

instance {α : Type} (sec : α → Nat) (ts : α → Option Int) : IsTotal α (stLe sec ts) := by
  constructor
  intro a b
  rcases Nat.lt_trichotomy (sec a) (sec b) with h | h | h
  · exact Or.inl (Or.inl h)
  · rcases optKeyLe_total (ts a) (ts b) with hp | hp
    · exact Or.inl (Or.inr ⟨h, hp⟩)
    · exact Or.inr (Or.inr ⟨h.symm, hp⟩)
  · exact Or.inr (Or.inl h)

instance {α : Type} (sec : α → Nat) (ts : α → Option Int) : IsTrans α (stLe sec ts) := by
  constructor
  intro a b c hab hbc
  rcases hab with hab | ⟨hab, hab'⟩ <;> rcases hbc with hbc | ⟨hbc, hbc'⟩
  · exact Or.inl (hab.trans hbc)
  · exact Or.inl (hbc ▸ hab)
  · exact Or.inl (hab ▸ hbc)
  · exact Or.inr ⟨hab.trans hbc, optKeyLe_trans hab' hbc'⟩

theorem stLe_sec {α : Type} {sec : α → Nat} {ts : α → Option Int} {a b : α}
    (h : stLe sec ts a b) : sec a ≤ sec b := by
  rcases h with h | ⟨h, _⟩
  · exact Nat.le_of_lt h
  · exact Nat.le_of_eq h

/-- Sort order by `snap_time` alone, used for the in-group sort
(stdev.py line 41). -/
def snapLe {α : Type} (ts : α → Option Int) (a b : α) : Prop :=
  optKeyLe (ts a) (ts b)

instance {α : Type} (ts : α → Option Int) : DecidableRel (snapLe ts) :=
  fun a b => inferInstanceAs (Decidable (optKeyLe (ts a) (ts b)))

instance {α : Type} (ts : α → Option Int) : IsTotal α (snapLe ts) :=
  ⟨fun a b => optKeyLe_total (ts a) (ts b)⟩

instance {α : Type} (ts : α → Option Int) : IsTrans α (snapLe ts) :=
  ⟨fun _ _ _ hab hbc => optKeyLe_trans hab hbc⟩

/-! ### Temporal aligner (`pd.merge_asof`, rates.py lines 65-73) -/

/-- Does this (nullable) spot timestamp admit a backward match against the
price time `t`?  `NaT` never matches. -/
def tsLeSome (o : Option Int) (t : Int) : Bool :=
  match o with
  | some u => decide (u ≤ t)
  | none => false

/-- The last row of the spot list with the requested pair whose timestamp is
at or before `t` — the spot pointer position of `merge_asof`'s backward scan
within one `by='ccy_pair'` group (the latest admitted row wins, ties by
position in the sorted input). -/
def lastLE : List SpotRow → Nat → Int → Option SpotRow
  | [], _, _ => none
  | s :: rest, pair, t =>
      match lastLE rest pair t with
      | some s' => some s'
      | none => if s.ccy_pair = pair ∧ tsLeSome s.timestamp t then some s else none

/-- The backward as-of match with one hour (3600 s) inclusive tolerance
(`pd.merge_asof(..., direction='backward', tolerance=pd.Timedelta('1h'))`):
the last same-pair spot row at or before the price time, kept only when the
gap is at most one hour.  A `NaT` price timestamp never matches. -/
def asofMatch (spots : List SpotRow) (p : PriceRow) : Option SpotRow :=
  match p.timestamp with
  | none => none
  | some t =>
      match lastLE spots p.ccy_pair t with
      | none => none
      | some s =>
          match s.timestamp with
          | some u => if t - u ≤ 3600 then some s else none
          | none => none

/-- The as-of join: one output row per price row (left row order preserved),
spot fields taken from the match or left missing. -/
def asofJoin (spots : List SpotRow) (price : List PriceRow) : List AlignedRow :=
  price.map (fun p =>
    { timestamp := p.timestamp
      ccy_pair := p.ccy_pair
      price := p.price
      spot_mid_rate :=
        match asofMatch spots p with
        | some s => s.spot_mid_rate
        | none => PVal.null })

/-- `merge_asof` validates its join keys: a key column that mixes null and
non-null values is rejected (`ValueError: Merge keys contain null values`);
after the `NaT`-last sort this is exactly when the column is not monotone. -/
def mixedNull (l : List (Option Int)) : Bool :=
  l.any (fun o => o.isNone) && l.any (fun o => o.isSome)

/-! ### Rule merger, price converter, window filter (rates.py lines 76-103) -/

/-- `merged.merge(ccy, on='ccy_pair', how='left')`: every left row is kept in
order; an unmatched row gets missing rule fields; each matching rule row
produces one output row (in rule-table order). -/
def rulesMerge (ccy : List CcyRule) (l : List AlignedRow) : List RuleMergedRow :=
  l.flatMap (fun r =>
    match ccy.filter (fun c => c.ccy_pair == r.ccy_pair) with
    | [] => [{ timestamp := r.timestamp, ccy_pair := r.ccy_pair, price := r.price,
               spot_mid_rate := r.spot_mid_rate, convert_price := none,
               conversion_factor := PVal.null }]
    | ms => ms.map (fun c =>
        { timestamp := r.timestamp, ccy_pair := r.ccy_pair, price := r.price,
          spot_mid_rate := r.spot_mid_rate, convert_price := some c.convert_price,
          conversion_factor := c.conversion_factor }))

/-- The boolean coercion of `convert_price` followed by the vectorized
`new_price` computation (rates.py lines 79-95). -/
def convertStep (r : RuleMergedRow) : ConvRow :=
  let cv := astypeBool r.convert_price
  { timestamp := r.timestamp, ccy_pair := r.ccy_pair, price := r.price,
    spot_mid_rate := r.spot_mid_rate, convert_price := cv,
    conversion_factor := r.conversion_factor,
    new_price := newPrice r.price r.spot_mid_rate cv r.conversion_factor }

/-- Pandas comparison `timestamp >= bound`: `NaT` compares false. -/
def tsGeB (o : Option Int) (bound : Int) : Bool :=
  match o with
  | some t => decide (bound ≤ t)
  | none => false

/-- Pandas comparison `timestamp <= bound`: `NaT` compares false. -/
def tsLeB (o : Option Int) (bound : Int) : Bool :=
  match o with
  | some t => decide (t ≤ bound)
  | none => false

/-- The window filter (rates.py lines 100-103, stdev.py lines 92-93): keep
rows at or after `start` when `start` is given, then rows at or before
`stop` when `stop` is given; row order is untouched. -/
def windowFilter {α : Type} (ts : α → Option Int) (start stop : Option Int)
    (l : List α) : List α :=
  let l₁ := match start with
    | some s => l.filter (fun r => tsGeB (ts r) s)
    | none => l
  match stop with
  | some e => l₁.filter (fun r => tsLeB (ts r) e)
  | none => l₁

/-- The full rates pipeline `RatesProcessor.process` (rates.py lines 38-109),
file loading and CSV output abstracted away.  `merge_asof` rejects null join
keys, so a price or spot table whose timestamp column mixes `NaT` with real
times aborts the batch with a `ValueError`. -/
def ratesProcess (price : List PriceRow) (spot : List SpotRow) (ccy : List CcyRule)
    (start stop : Option Int) : Except String (List ConvRow) :=
  let psort := List.insertionSort (tpLe (fun r => r.timestamp) (fun r => r.ccy_pair)) price
  let ssort := List.insertionSort (tpLe (fun r => r.timestamp) (fun r => r.ccy_pair)) spot
  if mixedNull (psort.map (fun r => r.timestamp)) then
    Except.error "Merge keys contain null values on left side"
  else if mixedNull (ssort.map (fun r => r.timestamp)) then
    Except.error "Merge keys contain null values on right side"
  else
    let merged := (rulesMerge ccy (asofJoin ssort psort)).map convertStep
    Except.ok (windowFilter (fun r => r.timestamp) start stop merged)

/-! ### Rolling statistics engine (stdev.py) -/

/-- A row of the security snapshot table: `security_id` (categorical key,
abstracted to `Nat`), `snap_time` (`none` is `NaT`), and the three quote
fields (`none` is a missing float). -/
structure SecRow where
  security_id : Nat
  snap_time : Option Int
  bid : Option ℚ
  mid : Option ℚ
  ask : Option ℚ
deriving DecidableEq

/-- An output row of the rolling engine.  The three stdev columns carry the
exact sample variance (square of the standard deviation) as payload: a cell
is null in the source exactly when it is `none` here.  `gap_blocked` is
`none` when the diagnostic was not requested (`add_gap_flag=False`). -/
structure SecOutRow where
  security_id : Nat
  snap_time : Option Int
  bid : Option ℚ
  mid : Option ℚ
  ask : Option ℚ
  bid_stdev : Option ℚ
  mid_stdev : Option ℚ
  ask_stdev : Option ℚ
  gap_blocked : Option Bool
deriving DecidableEq

/-- Is the step from timestamp `a` to timestamp `b` exactly one hour?
(`diff().eq(pd.Timedelta('1h'))`, stdev.py line 44; a `NaT` on either side
compares false.) -/
def tsDiffIsHour : Option Int → Option Int → Bool
  | some a, some b => decide (b - a = 3600)
  | _, _ => false

/-- The hourly gap indicator at row `i` of the sorted group
(`one_hour_gap`, stdev.py line 44): `1` when row `i` follows exactly one
hour after row `i-1`, else `0`; row `0` gets `0` (its diff is `NaT`). -/
def gapAt (ts : List (Option Int)) (i : Nat) : Nat :=
  if i = 0 then 0
  else if tsDiffIsHour (ts.getD (i - 1) none) (ts.getD i none) then 1 else 0

/-- The trailing window of width `w` ending at position `i` that pandas
`rolling(w)` aggregates: the last `min(i+1, w)` entries up to `i`. -/
def winAt {α : Type} (l : List α) (w i : Nat) : List α :=
  (l.take (i + 1)).drop (i + 1 - w)

/-- The contiguity mask (`contiguous_20`, stdev.py line 47): the rolling
19-sum of gap indicators with `min_periods=19` equals 19 — all 19 adjacent
steps inside the 20-row window ending at row `i` are exactly one hour. -/
def contigAt (ts : List (Option Int)) (i : Nat) : Bool :=
  let w := winAt ((List.range ts.length).map (gapAt ts)) 19 i
  decide (w.length = 19) && decide (w.sum = 19)

/-- The sample variance (Bessel `n-1` denominator) of a list of rationals:
the square of pandas' sample standard deviation. -/
def svar (l : List ℚ) : ℚ :=
  ((l.map (fun x => (x - l.sum / (l.length : ℚ)) ^ 2)).sum) / ((l.length : ℚ) - 1)

/-- The unmasked rolling statistic (`rolling(20, min_periods=20).std()`,
stdev.py line 51), with the sample variance as payload: defined (non-null)
exactly when the 20-row window ending at `i` exists and all 20 values are
present. -/
def rollVarAt (vals : List (Option ℚ)) (i : Nat) : Option ℚ :=
  let w := winAt vals 20 i
  if w.length = 20 ∧ w.all Option.isSome then some (svar (w.filterMap id)) else none

/-- The masked rolling statistic (`roll_std.where(contiguous_20)`,
stdev.py line 53). -/
def maskedAt (vals : List (Option ℚ)) (ts : List (Option Int)) (i : Nat) : Option ℚ :=
  if contigAt ts i then rollVarAt vals i else none

/-- In-group sort by `snap_time` (stdev.py line 41). -/
def sortGroup (grp : List SecRow) : List SecRow :=
  List.insertionSort (snapLe (fun r => r.snap_time)) grp

/-- The output row at position `i` of the (sorted) group `g`: the original
fields of row `r` plus the three masked rolling statistics and — when
requested — the `gap_blocked` flag, which the source computes from the
columns of `out`, i.e. from the *already masked* stdevs (stdev.py line 60). -/
def outRowAt (addGap : Bool) (g : List SecRow) (i : Nat) (r : SecRow) : SecOutRow :=
  let ts := g.map (fun x => x.snap_time)
  let b := maskedAt (g.map (fun x => x.bid)) ts i
  let m := maskedAt (g.map (fun x => x.mid)) ts i
  let a := maskedAt (g.map (fun x => x.ask)) ts i
  { security_id := r.security_id, snap_time := r.snap_time,
    bid := r.bid, mid := r.mid, ask := r.ask,
    bid_stdev := b, mid_stdev := m, ask_stdev := a,
    gap_blocked :=
      if addGap then some ((!contigAt ts i) && (b.isSome || m.isSome || a.isSome))
      else none }

/-- `StdDevProcessor._compute_group_stdev` (stdev.py lines 35-62): sort the
group by `snap_time`, then emit one output row per row. -/
def computeGroupStdev (addGap : Bool) (grp : List SecRow) : List SecOutRow :=
  (sortGroup grp).enum.map (fun p => outRowAt addGap (sortGroup grp) p.1 p.2)

/-- The full stdev pipeline `StdDevProcessor.process` (stdev.py lines
64-99): stable sort by `(security_id, snap_time)`, per-group rolling
statistics (pandas `groupby` iterates groups in ascending key order, each
group being the key's rows in dataframe order), concatenation, and the
inclusive window filter. -/
def stdevProcess (rows : List SecRow) (start stop : Int) (addGap : Bool) :
    List SecOutRow :=
  let sorted := List.insertionSort
    (stLe (fun r => r.security_id) (fun r => r.snap_time)) rows
  let keys := (sorted.map (fun r => r.security_id)).dedup
  let concatted := keys.flatMap (fun k =>
    computeGroupStdev addGap (sorted.filter (fun r => r.security_id == k)))
  windowFilter (fun r => r.snap_time) (some start) (some stop) concatted

/-! ### Auxiliary definitions and concrete witness data -/

/-- The combined inclusive-bounds predicate of the window filter. -/
def inWindowB {α : Type} (ts : α → Option Int) (start stop : Option Int) (r : α) : Bool :=
  (match start with | some s => tsGeB (ts r) s | none => true) &&
  (match stop with | some e => tsLeB (ts r) e | none => true)

/-- The output row of the concrete C6 witness batch. -/
def c6out : ConvRow :=
  { timestamp := some 0, ccy_pair := 1, price := PVal.num 100,
    spot_mid_rate := PVal.null, convert_price := false,
    conversion_factor := PVal.num 2, new_price := PVal.null }

/-- The rule-merged row produced for an aligned row whose pair has no
conversion rule: the rule fields are left missing by the left join. -/
def nullRuleRow (r : AlignedRow) : RuleMergedRow :=
  { timestamp := r.timestamp, ccy_pair := r.ccy_pair, price := r.price,
    spot_mid_rate := r.spot_mid_rate, convert_price := none,
    conversion_factor := PVal.null }

/-- The concrete aligned row used by the C10 witness. -/
def c10r : AlignedRow :=
  { timestamp := some 3600, ccy_pair := 1, price := PVal.num 100,
    spot_mid_rate := PVal.num 1 }

/-- The C1 group: 20 rows of one security, hourly except for a two-hour jump
between rows 9 and 10, all quote values present. -/
def c1grp : List SecRow :=
  (List.range 20).map (fun i =>
    { security_id := 1,
      snap_time := some (3600 * (if i < 10 then (i : Int) else (i : Int) + 2)),
      bid := some 1, mid := some 1, ask := some 1 })

/-- The aligned row produced for a price row with no as-of match: the spot
fields are left missing. -/
def alignNoMatch (p : PriceRow) : AlignedRow :=
  { timestamp := p.timestamp, ccy_pair := p.ccy_pair, price := p.price,
    spot_mid_rate := PVal.null }

/-- C3 witness data: a spot exactly one hour before the price (matches) and
one a second beyond the tolerance (does not). -/
def c3sB : SpotRow := { timestamp := some (-1), ccy_pair := 1, spot_mid_rate := PVal.num 2 }

/-- C3 witness data: the spot exactly one hour before the price. -/
def c3sA : SpotRow := { timestamp := some 0, ccy_pair := 1, spot_mid_rate := PVal.num 1 }

/-- C3 witness data: the sorted spot table. -/
def c3spots : List SpotRow := [c3sB, c3sA]

/-- C3 witness data: a price one hour after `c3sA`. -/
def c3p : PriceRow := { timestamp := some 3600, ccy_pair := 1, price := PVal.num 5 }

/-- The specification of one masked rolling cell at row `i` of the sorted
group: non-null exactly when row `i` has at least 19 predecessors, the 19
adjacent snap-time steps across rows `i-19..i` are each exactly one hour,
and all 20 values of the field in those rows are present; and then the
payload is the sample variance (the square of the sample standard
deviation) of those 20 values. -/
def fieldSpec (ts : List (Option Int)) (vals : List (Option ℚ)) (i : Nat)
    (o : Option ℚ) : Prop :=
  (o ≠ none ↔
    (19 ≤ i ∧
      (∀ j < 19, ∃ a b, ts[i - 19 + j]? = some (some a) ∧
        ts[i - 18 + j]? = some (some b) ∧ b - a = 3600) ∧
      (∀ j < 20, ∃ q, vals[i - 19 + j]? = some (some q)))) ∧
  (o ≠ none → o = some (svar ((winAt vals 20 i).filterMap id)))

/-- The C4 counterexample group: 20 rows of one security with perfectly
hourly snap times, but the `bid` value of row 0 missing. -/
def c4grp : List SecRow :=
  (List.range 20).map (fun i =>
    { security_id := 1, snap_time := some (3600 * (i : Int)),
      bid := if i = 0 then none else some 1, mid := some 1, ask := some 1 })

/-- The C4 witness group: 20 rows of one security, hourly, all values 1. -/
def c4wgrp : List SecRow :=
  (List.range 20).map (fun i =>
    { security_id := 1, snap_time := some (3600 * (i : Int)),
      bid := some 1, mid := some 1, ask := some 1 })

/-- The C4 witness output row at index 19 of `c4wgrp`: all three cells hold
the sample variance of twenty ones. -/
def c4wrow : SecOutRow :=
  { security_id := 1, snap_time := some (3600 * 19),
    bid := some 1, mid := some 1, ask := some 1,
    bid_stdev := some (svar (List.replicate 20 1)),
    mid_stdev := some (svar (List.replicate 20 1)),
    ask_stdev := some (svar (List.replicate 20 1)),
    gap_blocked := none }

/-- C9 witness data: two security groups, group order A-then-B. -/
def c9l1 : List SecRow :=
  [{ security_id := 1, snap_time := some 0, bid := some 1, mid := some 2, ask := some 3 },
   { security_id := 1, snap_time := some 3600, bid := some 2, mid := some 3, ask := some 4 },
   { security_id := 2, snap_time := some 0, bid := some 5, mid := some 6, ask := some 7 }]

/-- C9 witness data: the same rows with the two group blocks swapped. -/
def c9l2 : List SecRow :=
  [{ security_id := 2, snap_time := some 0, bid := some 5, mid := some 6, ask := some 7 },
   { security_id := 1, snap_time := some 0, bid := some 1, mid := some 2, ask := some 3 },
   { security_id := 1, snap_time := some 3600, bid := some 2, mid := some 3, ask := some 4 }]

/-! ### Window filter lemmas -/


theorem tsGeB_iff {o : Option Int} {s : Int} : tsGeB o s = true ↔ ∃ t, o = some t ∧ s ≤ t := by
  cases o <;> simp [tsGeB]

theorem tsLeB_iff {o : Option Int} {e : Int} : tsLeB o e = true ↔ ∃ t, o = some t ∧ t ≤ e := by
  cases o <;> simp [tsLeB]

theorem windowFilter_eq_filter {α : Type} (ts : α → Option Int) (start stop : Option Int)
    (l : List α) : windowFilter ts start stop l = l.filter (inWindowB ts start stop) := by
  cases start <;> cases stop
  · exact (List.filter_eq_self.mpr (fun a _ => rfl)).symm
  · exact List.filter_congr (fun a _ => by simp [inWindowB])
  · exact List.filter_congr (fun a _ => by simp [inWindowB])
  · show (l.filter _).filter _ = _
    rw [List.filter_filter]
    exact List.filter_congr (fun a _ => by simp [inWindowB, Bool.and_comm])

theorem windowFilter_sublist {α : Type} (ts : α → Option Int) (start stop : Option Int)
    (l : List α) : (windowFilter ts start stop l).Sublist l := by
  rw [windowFilter_eq_filter]
  exact List.filter_sublist l

theorem mem_windowFilter {α : Type} {ts : α → Option Int} {start stop : Option Int}
    {l : List α} {r : α} :
    r ∈ windowFilter ts start stop l ↔ r ∈ l ∧
      (∀ s, start = some s → ∃ t, ts r = some t ∧ s ≤ t) ∧
      (∀ e, stop = some e → ∃ t, ts r = some t ∧ t ≤ e) := by
  rw [windowFilter_eq_filter, List.mem_filter]
  cases start <;> cases stop <;> simp [inWindowB, tsGeB_iff, tsLeB_iff]

/-! ### Claim theorems: rates pipeline row arithmetic -/

/-- C5: for a row with a spot match and a non-null conversion factor, a
false `convert_price` passes the price through unchanged and a true one
computes `price / conversion_factor + spot_mid_rate`. -/
theorem C5_conversion_formula :
    ∀ (price spot factor : PVal), spot.isna = false → factor.isna = false →
      newPrice price spot false factor = price ∧
      newPrice price spot true factor = (price.div factor).add spot := by
  intro price spot factor hs _
  constructor <;> simp [newPrice, hs]

/-- Witness for C5 at the spec's example: price 100, factor 2, rate 1.5
gives 51.5 when converting and 100 when not. -/
theorem C5_witness :
    newPrice (PVal.num 100) (PVal.num (3/2)) false (PVal.num 2) = PVal.num 100 ∧
    newPrice (PVal.num 100) (PVal.num (3/2)) true (PVal.num 2) = PVal.num (103/2) := by
  have h := C5_conversion_formula (PVal.num 100) (PVal.num (3/2)) (PVal.num 2)
    (by decide) (by decide)
  refine ⟨h.1, h.2.trans ?_⟩
  norm_num [PVal.div, PVal.add]

/-- C2 fails as stated: with a spot match, `convert_price` true and a *zero*
(not null) conversion factor, float division produces a signed infinity and
`new_price` is non-null. -/
theorem C2_counterexample :
    (PVal.num (3/2)).isna = false ∧
    newPrice (PVal.num 100) (PVal.num (3/2)) true (PVal.num 0) = PVal.pinf ∧
    (newPrice (PVal.num 100) (PVal.num (3/2)) true (PVal.num 0)).isna = false := by
  decide

/-- C2 (amended): with a spot match and `convert_price` true, a *null*
conversion factor propagates to a null `new_price` for that row; a zero
factor also does not abort the batch but yields a non-null (infinite)
`new_price` whenever the price is a nonzero finite number and the spot rate
is finite; and the batch never raises from the conversion arithmetic — it
completes whenever the sorted join keys are free of mixed null values. -/
theorem C2_null_factor_propagates :
    (∀ (price spot : PVal), spot.isna = false →
      newPrice price spot true PVal.null = PVal.null) ∧
    (∀ (a b : ℚ), a ≠ 0 →
      (newPrice (PVal.num a) (PVal.num b) true (PVal.num 0)).isna = false) ∧
    (∀ (price : List PriceRow) (spot : List SpotRow) (ccy : List CcyRule)
        (start stop : Option Int),
      mixedNull ((List.insertionSort
        (tpLe (fun r : PriceRow => r.timestamp) (fun r => r.ccy_pair)) price).map
          (fun r => r.timestamp)) = false →
      mixedNull ((List.insertionSort
        (tpLe (fun r : SpotRow => r.timestamp) (fun r => r.ccy_pair)) spot).map
          (fun r => r.timestamp)) = false →
      ∃ out, ratesProcess price spot ccy start stop = Except.ok out) := by
  refine ⟨?_, ?_, ?_⟩
  · intro price spot hs
    cases price <;> simp [newPrice, hs, PVal.div, PVal.add]
  · intro a b ha
    rcases lt_trichotomy a 0 with h | h | h
    · simp [newPrice, PVal.isna, PVal.div, PVal.add, ha, not_lt.mpr (le_of_lt h)]
    · exact absurd h ha
    · simp [newPrice, PVal.isna, PVal.div, PVal.add, ha, h]
  · intro price spot ccy start stop hp hs
    unfold ratesProcess
    simp only [hp, hs]
    exact ⟨_, rfl⟩

/-- Witness for C2 (amended) at concrete rows: null factor gives null, zero
factor gives non-null, and a concrete batch with clean timestamps returns
`ok`. -/
theorem C2_witness :
    newPrice (PVal.num 100) (PVal.num (3/2)) true PVal.null = PVal.null ∧
    (newPrice (PVal.num 100) (PVal.num (3/2)) true (PVal.num 0)).isna = false ∧
    ∃ out, ratesProcess [{ timestamp := some 0, ccy_pair := 1, price := PVal.num 100 }]
      [] [] none none = Except.ok out := by
  refine ⟨C2_null_factor_propagates.1 _ _ (by decide),
    C2_null_factor_propagates.2.1 100 (3/2) (by norm_num),
    C2_null_factor_propagates.2.2 _ _ _ _ _ (by decide) (by decide)⟩

/-- C6: any output row of the rates batch whose `spot_mid_rate` is null (no
spot match) has a null `new_price`, whatever `convert_price` and the rule
table say. -/
theorem C6_no_spot_null_new_price :
    ∀ (price : List PriceRow) (spot : List SpotRow) (ccy : List CcyRule)
      (start stop : Option Int) (out : List ConvRow),
      ratesProcess price spot ccy start stop = Except.ok out →
      ∀ r ∈ out, r.spot_mid_rate = PVal.null → r.new_price = PVal.null := by
  intro price spot ccy start stop out h r hr hnull
  simp only [ratesProcess] at h
  split at h
  · exact Except.noConfusion h
  split at h
  · exact Except.noConfusion h
  rw [Except.ok.injEq] at h
  subst h
  have hr' := (windowFilter_sublist _ _ _ _).subset hr
  rcases List.mem_map.mp hr' with ⟨m, _, rfl⟩
  have hsp : m.spot_mid_rate = PVal.null := hnull
  simp [convertStep, newPrice, hsp, PVal.isna]


/-- Witness for C6: a concrete batch with an empty spot table and a matching
rule still yields a null `new_price`. -/
theorem C6_witness :
    ratesProcess [{ timestamp := some 0, ccy_pair := 1, price := PVal.num 100 }] []
      [{ ccy_pair := 1, convert_price := false, conversion_factor := PVal.num 2 }]
      none none = Except.ok [c6out] ∧
    c6out.new_price = PVal.null := by
  refine ⟨rfl, ?_⟩
  exact C6_no_spot_null_new_price
    [{ timestamp := some 0, ccy_pair := 1, price := PVal.num 100 }] []
    [{ ccy_pair := 1, convert_price := false, conversion_factor := PVal.num 2 }]
    none none [c6out] rfl c6out (List.mem_singleton.mpr rfl) rfl


/-- C10: an aligned row with no matching conversion rule gets missing rule
fields from the left join; `astype(bool)` coerces the missing
`convert_price` to `true` (Python `bool(nan)`), so with a spot match the
row takes the conversion branch and division by the null factor makes
`new_price` null instead of `price`. -/
theorem C10_null_rule_coerced_true :
    astypeBool none = true ∧
    ∀ (r : AlignedRow) (ccy : List CcyRule),
      ccy.filter (fun c => c.ccy_pair == r.ccy_pair) = [] →
      rulesMerge ccy [r] = [nullRuleRow r] ∧
      (convertStep (nullRuleRow r)).convert_price = true ∧
      (r.spot_mid_rate.isna = false →
        (convertStep (nullRuleRow r)).new_price = PVal.null ∧
        (r.price.isna = false → (convertStep (nullRuleRow r)).new_price ≠ r.price)) := by
  refine ⟨rfl, ?_⟩
  intro r ccy h
  refine ⟨?_, rfl, ?_⟩
  · simp [rulesMerge, h, nullRuleRow]
  · intro hs
    have hnp : (convertStep (nullRuleRow r)).new_price = PVal.null := by
      cases hp : r.price <;>
        simp [convertStep, nullRuleRow, astypeBool, newPrice, hs, hp, PVal.div, PVal.add]
    refine ⟨hnp, ?_⟩
    intro hpna
    rw [hnp]
    intro hcontra
    rw [← hcontra] at hpna
    simp [PVal.isna] at hpna


/-- Witness for C10 at a concrete aligned row with a spot match and an empty
rule table. -/
theorem C10_witness :
    rulesMerge [] [c10r] = [nullRuleRow c10r] ∧
    (convertStep (nullRuleRow c10r)).convert_price = true ∧
    (convertStep (nullRuleRow c10r)).new_price = PVal.null := by
  have h := C10_null_rule_coerced_true.2 c10r [] rfl
  exact ⟨h.1, h.2.1, (h.2.2 (by decide)).1⟩

/-! ### Claim theorems: C1 and C7 (code bugs) -/


/-- C1 fails in the code: `gap_blocked` is computed from the already-masked
stdev columns of `out`, so it is false on every row — here on a group of 20
rows with a single broken hourly gap where the window ending at row 19 is
not contiguous yet had all 20 data points (the unmasked statistic at row 19
is non-null), i.e. a row the spec requires to be flagged `true`. -/
theorem C1_gap_blocked_never_true :
    ((computeGroupStdev true c1grp).map (fun r => r.gap_blocked)).all
      (fun o => o == some false) = true ∧
    contigAt (c1grp.map (fun r => r.snap_time)) 19 = false ∧
    (rollVarAt (c1grp.map (fun r => r.bid)) 19).isSome = true ∧
    (computeGroupStdev true c1grp).length = 20 := by
  decide

/-- C7 fails in the code on the rates side: `pd.merge_asof` refuses join
keys that mix null and non-null values, so a price table containing one
`NaT` timestamp aborts the batch with a `ValueError` instead of leaving the
row unmatched.  The stdev side behaves as claimed: a null `snap_time` gives
a zero gap indicator on both adjacent rows and the pipeline completes. -/
theorem C7_null_timestamp_aborts_rates :
    ratesProcess
      [{ timestamp := some 0, ccy_pair := 1, price := PVal.num 1 },
       { timestamp := none, ccy_pair := 1, price := PVal.num 2 }]
      [{ timestamp := some 0, ccy_pair := 1, spot_mid_rate := PVal.num 1 }]
      [] none none = Except.error "Merge keys contain null values on left side" ∧
    gapAt [some 0, none, some 7200] 1 = 0 ∧
    gapAt [some 0, none, some 7200] 2 = 0 ∧
    (stdevProcess
      [{ security_id := 1, snap_time := some 0, bid := some 1, mid := some 1, ask := some 1 },
       { security_id := 1, snap_time := none, bid := some 1, mid := some 1, ask := some 1 }]
      0 7200 false).length = 1 :=
  ⟨rfl, rfl, rfl, rfl⟩

/-! ### Claim theorem: C8 (window filter) -/

/-- C8: the window filter retains exactly the rows whose timestamp satisfies
every present bound inclusively (a row exactly at a bound is kept, an absent
bound restricts nothing), and it preserves relative row order (the result is
a sublist given by a single filter pass). -/
theorem C8_window_filter :
    ∀ (α : Type) (ts : α → Option Int) (start stop : Option Int) (l : List α),
      windowFilter ts start stop l = l.filter (inWindowB ts start stop) ∧
      (windowFilter ts start stop l).Sublist l ∧
      ∀ r, r ∈ windowFilter ts start stop l ↔ r ∈ l ∧
        (∀ s, start = some s → ∃ t, ts r = some t ∧ s ≤ t) ∧
        (∀ e, stop = some e → ∃ t, ts r = some t ∧ t ≤ e) :=
  fun _ ts start stop l =>
    ⟨windowFilter_eq_filter ts start stop l, windowFilter_sublist ts start stop l,
      fun _ => mem_windowFilter⟩

/-- Witness for C8: a row exactly at both bounds is retained. -/
theorem C8_witness :
    c10r ∈ windowFilter (fun r : AlignedRow => r.timestamp)
      (some 3600) (some 3600) [c10r] := by
  refine ((C8_window_filter _ _ _ _ _).2.2 c10r).mpr ?_
  refine ⟨List.mem_singleton.mpr rfl, ?_, ?_⟩
  · intro s hs
    cases hs
    exact ⟨3600, rfl, le_refl _⟩
  · intro e he
    cases he
    exact ⟨3600, rfl, le_refl _⟩

/-! ### Claim theorem: C3 (temporal aligner) -/

theorem lastLE_eq_none {spots : List SpotRow} {pair : Nat} {t : Int}
    (h : lastLE spots pair t = none) :
    ∀ s ∈ spots, ¬(s.ccy_pair = pair ∧ tsLeSome s.timestamp t = true) := by
  induction spots with
  | nil => intro s hs; exact absurd hs (List.not_mem_nil s)
  | cons a rest ih =>
      intro s hs
      cases hres : lastLE rest pair t with
      | some s' => simp [lastLE, hres] at h
      | none =>
          simp only [lastLE, hres] at h
          rcases List.mem_cons.mp hs with rfl | hs'
          · intro hc
            rw [if_pos hc] at h
            exact Option.noConfusion h
          · exact ih hres s hs'

theorem lastLE_eq_some {spots : List SpotRow} {pair : Nat} {t : Int} {s : SpotRow}
    (h : lastLE spots pair t = some s) :
    s ∈ spots ∧ s.ccy_pair = pair ∧ tsLeSome s.timestamp t = true := by
  induction spots with
  | nil => exact Option.noConfusion h
  | cons a rest ih =>
      cases hres : lastLE rest pair t with
      | some s' =>
          simp only [lastLE, hres] at h
          rcases ih (hres.trans (congrArg some (Option.some.inj h))) with ⟨hmem, hpair, hle⟩
          exact ⟨List.mem_cons_of_mem a hmem, hpair, hle⟩
      | none =>
          rw [lastLE, hres] at h
          by_cases hc : a.ccy_pair = pair ∧ tsLeSome a.timestamp t = true
          · rw [if_pos hc] at h
            obtain rfl := Option.some.inj h
            exact ⟨List.mem_cons_self a rest, hc.1, hc.2⟩
          · rw [if_neg hc] at h
            exact Option.noConfusion h

theorem lastLE_max {spots : List SpotRow} {pair : Nat} {t : Int} {s : SpotRow}
    (hsort : spots.Pairwise (fun a b => optKeyLe a.timestamp b.timestamp))
    (h : lastLE spots pair t = some s) :
    ∀ x ∈ spots, x.ccy_pair = pair → tsLeSome x.timestamp t = true →
      optKeyLe x.timestamp s.timestamp := by
  induction spots with
  | nil => exact absurd h (by simp [lastLE])
  | cons a rest ih =>
      rcases List.pairwise_cons.mp hsort with ⟨ha, hrest⟩
      intro x hx hpair hle
      cases hres : lastLE rest pair t with
      | some s' =>
          simp only [lastLE, hres] at h
          obtain rfl := Option.some.inj h
          rcases List.mem_cons.mp hx with rfl | hx'
          · exact ha _ (lastLE_eq_some hres).1
          · exact ih hrest hres x hx' hpair hle
      | none =>
          simp only [lastLE, hres] at h
          by_cases hc : a.ccy_pair = pair ∧ tsLeSome a.timestamp t = true
          · rw [if_pos hc] at h
            obtain rfl := Option.some.inj h
            rcases List.mem_cons.mp hx with rfl | hx'
            · exact optKeyLe_refl _
            · exact absurd ⟨hpair, hle⟩ (lastLE_eq_none hres x hx')
          · rw [if_neg hc] at h
            exact Option.noConfusion h

/-- C3: under the aligner's preconditions (spot rows sorted ascending by
timestamp, no null spot timestamps) the backward as-of match for a price at
time `t` is a same-pair spot row at or before `t`, within the inclusive one
hour tolerance, whose timestamp dominates every other admissible spot row
(so a spot exactly one hour before matches); when no admissible row exists
— in particular when every same-pair row is more than one hour back — the
match is empty and the joined row carries null spot fields. -/
theorem C3_asof_characterization
    (spots : List SpotRow) (p : PriceRow) (t : Int)
    (hsort : spots.Pairwise (fun a b => optKeyLe a.timestamp b.timestamp))
    (hsome : ∀ x ∈ spots, x.timestamp.isSome = true)
    (hp : p.timestamp = some t) :
    (∀ s, asofMatch spots p = some s →
      s ∈ spots ∧ s.ccy_pair = p.ccy_pair ∧
      ∃ u, s.timestamp = some u ∧ u ≤ t ∧ t - u ≤ 3600 ∧
        ∀ x ∈ spots, x.ccy_pair = p.ccy_pair →
          ∀ v, x.timestamp = some v → v ≤ t → t - v ≤ 3600 → v ≤ u) ∧
    (asofMatch spots p = none →
      ∀ x ∈ spots, x.ccy_pair = p.ccy_pair →
        ∀ v, x.timestamp = some v → ¬(v ≤ t ∧ t - v ≤ 3600)) ∧
    (asofMatch spots p = none → asofJoin spots [p] = [alignNoMatch p]) := by
  refine ⟨?_, ?_, ?_⟩
  · intro s hmatch
    simp only [asofMatch, hp] at hmatch
    cases hl : lastLE spots p.ccy_pair t with
    | none => simp only [hl] at hmatch; exact Option.noConfusion hmatch
    | some s₀ =>
        simp only [hl] at hmatch
        rcases lastLE_eq_some hl with ⟨hmem, hpair, hle⟩
        rcases Option.isSome_iff_exists.mp (hsome s₀ hmem) with ⟨u₀, hu₀⟩
        simp only [hu₀] at hmatch
        by_cases htol : t - u₀ ≤ 3600
        · rw [if_pos htol] at hmatch
          obtain rfl := Option.some.inj hmatch
          refine ⟨hmem, hpair, u₀, hu₀, ?_, htol, ?_⟩
          · rw [hu₀] at hle
            exact of_decide_eq_true hle
          · intro x hx hxpair v hv hvle _
            have hxle : tsLeSome x.timestamp t = true := by
              rw [hv]; exact decide_eq_true hvle
            have := lastLE_max hsort hl x hx hxpair hxle
            rw [hv, hu₀] at this
            exact this
        · rw [if_neg htol] at hmatch
          exact Option.noConfusion hmatch
  · intro hnone x hx hxpair v hv hc
    simp only [asofMatch, hp] at hnone
    cases hl : lastLE spots p.ccy_pair t with
    | none =>
        have hxle : tsLeSome x.timestamp t = true := by
          rw [hv]; exact decide_eq_true hc.1
        exact lastLE_eq_none hl x hx ⟨hxpair, hxle⟩
    | some s₀ =>
        simp only [hl] at hnone
        rcases lastLE_eq_some hl with ⟨hmem, _, _⟩
        rcases Option.isSome_iff_exists.mp (hsome s₀ hmem) with ⟨u₀, hu₀⟩
        simp only [hu₀] at hnone
        by_cases htol : t - u₀ ≤ 3600
        · rw [if_pos htol] at hnone
          exact Option.noConfusion hnone
        · have hxle : tsLeSome x.timestamp t = true := by
            rw [hv]; exact decide_eq_true hc.1
          have hmax := lastLE_max hsort hl x hx hxpair hxle
          rw [hv, hu₀] at hmax
          have hvu : v ≤ u₀ := hmax
          rcases hc with ⟨hc1, hc2⟩
          omega

  · intro hnone
    simp [asofJoin, hnone, alignNoMatch]

/-- Witness for C3: the spot exactly one hour back is attached and is the
admissible maximum; the spot one second beyond the tolerance alone yields no
match. -/
theorem C3_witness :
    asofMatch c3spots c3p = some c3sA ∧
    (c3sA ∈ c3spots ∧ c3sA.ccy_pair = c3p.ccy_pair ∧
      ∃ u, c3sA.timestamp = some u ∧ u ≤ 3600 ∧ 3600 - u ≤ 3600 ∧
        ∀ x ∈ c3spots, x.ccy_pair = c3p.ccy_pair →
          ∀ v, x.timestamp = some v → v ≤ 3600 → 3600 - v ≤ 3600 → v ≤ u) ∧
    asofMatch [c3sB] c3p = none := by
  have h := C3_asof_characterization c3spots c3p 3600 (by decide) (by decide) rfl
  exact ⟨rfl, h.1 c3sA rfl, rfl⟩

/-! ### Claim theorem: C4 (rolling statistics characterization) -/

theorem tsDiffIsHour_iff {o₁ o₂ : Option Int} :
    tsDiffIsHour o₁ o₂ = true ↔ ∃ a b, o₁ = some a ∧ o₂ = some b ∧ b - a = 3600 := by
  cases o₁ <;> cases o₂ <;> simp [tsDiffIsHour]

theorem getD_some_iff {l : List (Option Int)} {k : Nat} {a : Int} :
    l.getD k none = some a ↔ l[k]? = some (some a) := by
  rw [List.getD_eq_getElem?_getD]
  cases h : l[k]? with
  | none => simp
  | some o => cases o <;> simp

theorem gapAt_le_one (ts : List (Option Int)) (k : Nat) : gapAt ts k ≤ 1 := by
  unfold gapAt
  split
  · omega
  · split <;> omega

theorem gapAt_eq_one_iff {ts : List (Option Int)} {k : Nat} :
    gapAt ts k = 1 ↔ 1 ≤ k ∧ ∃ a b, ts[k - 1]? = some (some a) ∧
      ts[k]? = some (some b) ∧ b - a = 3600 := by
  unfold gapAt
  by_cases h0 : k = 0
  · simp [h0]
  · rw [if_neg h0]
    by_cases hd : tsDiffIsHour (ts.getD (k - 1) none) (ts.getD k none) = true
    · rw [if_pos hd]
      rcases tsDiffIsHour_iff.mp hd with ⟨a, b, ha, hb, hab⟩
      constructor
      · intro _
        exact ⟨Nat.one_le_iff_ne_zero.mpr h0, a, b, getD_some_iff.mp ha,
          getD_some_iff.mp hb, hab⟩
      · intro _
        rfl
    · rw [if_neg hd]
      constructor
      · intro h
        exact absurd h (by omega)
      · rintro ⟨hk, a, b, ha, hb, hab⟩
        exact absurd (tsDiffIsHour_iff.mpr
          ⟨a, b, getD_some_iff.mpr ha, getD_some_iff.mpr hb, hab⟩) hd

theorem sum_le_length_of_le_one {l : List Nat} (h : ∀ x ∈ l, x ≤ 1) :
    l.sum ≤ l.length := by
  induction l with
  | nil => simp
  | cons a t ih =>
      simp only [List.sum_cons, List.length_cons]
      have ha := h a (List.mem_cons_self a t)
      have ht := ih (fun x hx => h x (List.mem_cons_of_mem a hx))
      omega

theorem sum_eq_length_iff_all_one {l : List Nat} (h : ∀ x ∈ l, x ≤ 1) :
    l.sum = l.length ↔ ∀ x ∈ l, x = 1 := by
  induction l with
  | nil => simp
  | cons a t ih =>
      have ha := h a (List.mem_cons_self a t)
      have hrest : ∀ x ∈ t, x ≤ 1 := fun x hx => h x (List.mem_cons_of_mem a hx)
      have ht := sum_le_length_of_le_one hrest
      have iht := ih hrest
      simp only [List.sum_cons, List.length_cons, List.mem_cons]
      constructor
      · intro hs
        have h1 : a = 1 ∧ t.sum = t.length := by omega
        intro x hx
        rcases hx with rfl | hx
        · exact h1.1
        · exact (iht.mp h1.2) x hx
      · intro hall
        have h1 : a = 1 := hall a (Or.inl rfl)
        have h2 : t.sum = t.length := iht.mpr (fun x hx => hall x (Or.inr hx))
        omega

theorem winAt_length {α : Type} (l : List α) (w i : Nat) :
    (winAt l w i).length = min (i + 1) l.length - (i + 1 - w) := by
  simp [winAt]

theorem winAt_length_eq_iff {α : Type} {l : List α} {w i : Nat} (hw : 1 ≤ w) :
    (winAt l w i).length = w ↔ w - 1 ≤ i ∧ i < l.length := by
  rw [winAt_length]
  omega

theorem winAt_getElem? {α : Type} {l : List α} {w i j : Nat} (hw : w ≤ i + 1) (hj : j < w) :
    (winAt l w i)[j]? = l[i + 1 - w + j]? := by
  unfold winAt
  rw [List.getElem?_drop]
  exact List.getElem?_take_of_lt (by omega)

theorem contigAt_iff {ts : List (Option Int)} {i : Nat} :
    contigAt ts i = true ↔
      18 ≤ i ∧ i < ts.length ∧ ∀ j < 19, gapAt ts (i - 18 + j) = 1 := by
  have hglen : ((List.range ts.length).map (gapAt ts)).length = ts.length := by simp
  have hle : ∀ x ∈ winAt ((List.range ts.length).map (gapAt ts)) 19 i, x ≤ 1 := by
    intro x hx
    have hx' : x ∈ (List.range ts.length).map (gapAt ts) :=
      List.mem_of_mem_take (List.mem_of_mem_drop hx)
    rcases List.mem_map.mp hx' with ⟨k, _, rfl⟩
    exact gapAt_le_one ts k
  unfold contigAt
  rw [Bool.and_eq_true, decide_eq_true_iff, decide_eq_true_iff]
  constructor
  · rintro ⟨hlen, hsum⟩
    have h1 : 18 ≤ i ∧ i < ts.length := by
      have := (winAt_length_eq_iff (l := (List.range ts.length).map (gapAt ts))
        (w := 19) (i := i) (by omega)).mp hlen
      rwa [hglen] at this
    refine ⟨h1.1, h1.2, ?_⟩
    have hall := (sum_eq_length_iff_all_one hle).mp (by rw [hlen]; exact hsum)
    intro j hj
    have hjel : (winAt ((List.range ts.length).map (gapAt ts)) 19 i)[j]?
        = some (gapAt ts (i - 18 + j)) := by
      rw [winAt_getElem? (by omega) hj]
      have hidx : i + 1 - 19 + j = i - 18 + j := by omega
      rw [hidx, List.getElem?_map, List.getElem?_range (by omega)]
      rfl
    exact hall _ (List.getElem?_mem hjel)
  · rintro ⟨h18, hn, hgap⟩
    have hlen : (winAt ((List.range ts.length).map (gapAt ts)) 19 i).length = 19 := by
      rw [winAt_length_eq_iff (by omega), hglen]
      exact ⟨by omega, hn⟩
    refine ⟨hlen, ?_⟩
    have hall : ∀ x ∈ winAt ((List.range ts.length).map (gapAt ts)) 19 i, x = 1 := by
      intro x hx
      rcases List.mem_iff_getElem?.mp hx with ⟨j, hj⟩
      have hjlt : j < 19 := by
        by_contra hc
        rw [List.getElem?_eq_none (by omega)] at hj
        exact Option.noConfusion hj
      have hjel := winAt_getElem? (l := (List.range ts.length).map (gapAt ts))
        (w := 19) (i := i) (by omega) hjlt
      have hidx : i + 1 - 19 + j = i - 18 + j := by omega
      rw [hidx, List.getElem?_map, List.getElem?_range (by omega)] at hjel
      rw [hjel] at hj
      obtain rfl := Option.some.inj hj.symm
      exact hgap j hjlt
    have hs := (sum_eq_length_iff_all_one hle).mpr hall
    rw [hlen] at hs
    exact hs

theorem rollVar_cond_iff {vals : List (Option ℚ)} {i : Nat} :
    ((winAt vals 20 i).length = 20 ∧ (winAt vals 20 i).all Option.isSome = true) ↔
      (19 ≤ i ∧ i < vals.length ∧ ∀ j < 20, ∃ q, vals[i - 19 + j]? = some (some q)) := by
  constructor
  · rintro ⟨hlen, hall⟩
    have h1 := (winAt_length_eq_iff (w := 20) (i := i) (by omega)).mp hlen
    refine ⟨by omega, h1.2, ?_⟩
    intro j hj
    have hjel := winAt_getElem? (l := vals) (w := 20) (i := i) (by omega) hj
    cases he : (winAt vals 20 i)[j]? with
    | none =>
        rw [List.getElem?_eq_none_iff, hlen] at he
        omega
    | some x =>
        have hxs : x.isSome = true := List.all_eq_true.mp hall x (List.getElem?_mem he)
        obtain ⟨q, rfl⟩ := Option.isSome_iff_exists.mp hxs
        have hidx : i + 1 - 20 + j = i - 19 + j := by omega
        rw [he, hidx] at hjel
        exact ⟨q, hjel.symm⟩
  · rintro ⟨h19, hn, hvals⟩
    have hlen : (winAt vals 20 i).length = 20 :=
      (winAt_length_eq_iff (by omega)).mpr ⟨by omega, hn⟩
    refine ⟨hlen, List.all_eq_true.mpr ?_⟩
    intro x hx
    rcases List.mem_iff_getElem?.mp hx with ⟨j, hj⟩
    have hjlt : j < 20 := by
      by_contra hc
      rw [List.getElem?_eq_none (by omega)] at hj
      exact Option.noConfusion hj
    have hjel := winAt_getElem? (l := vals) (w := 20) (i := i) (by omega) hjlt
    rcases hvals j hjlt with ⟨q, hq⟩
    have hidx : i + 1 - 20 + j = i - 19 + j := by omega
    rw [hidx] at hjel
    rw [hjel, hq] at hj
    obtain rfl := Option.some.inj hj.symm
    rfl

theorem rollVarAt_ne_none_iff {vals : List (Option ℚ)} {i : Nat} :
    rollVarAt vals i ≠ none ↔
      (19 ≤ i ∧ i < vals.length ∧ ∀ j < 20, ∃ q, vals[i - 19 + j]? = some (some q)) := by
  unfold rollVarAt
  rw [← rollVar_cond_iff]
  by_cases hc : (winAt vals 20 i).length = 20 ∧ (winAt vals 20 i).all Option.isSome = true
  · rw [if_pos hc]
    exact ⟨fun _ => hc, fun _ => Option.some_ne_none _⟩
  · rw [if_neg hc]
    exact ⟨fun h => absurd rfl h, fun h => absurd h hc⟩

theorem rollVarAt_value {vals : List (Option ℚ)} {i : Nat} (h : rollVarAt vals i ≠ none) :
    rollVarAt vals i = some (svar ((winAt vals 20 i).filterMap id)) := by
  unfold rollVarAt at h ⊢
  by_cases hc : (winAt vals 20 i).length = 20 ∧ (winAt vals 20 i).all Option.isSome = true
  · rw [if_pos hc]
  · rw [if_neg hc] at h
    exact absurd rfl h

theorem maskedAt_fieldSpec {ts : List (Option Int)} {vals : List (Option ℚ)} {i : Nat}
    (hlen : vals.length = ts.length) (hi : i < ts.length) :
    fieldSpec ts vals i (maskedAt vals ts i) := by
  unfold fieldSpec maskedAt
  by_cases hc : contigAt ts i = true
  · rw [if_pos hc]
    refine ⟨?_, rollVarAt_value⟩
    rw [rollVarAt_ne_none_iff]
    rcases contigAt_iff.mp hc with ⟨h18, hn, hgap⟩
    constructor
    · rintro ⟨h19, hn', hvals⟩
      refine ⟨h19, ?_, hvals⟩
      intro j hj
      rcases gapAt_eq_one_iff.mp (hgap j hj) with ⟨hk1, a, b, ha, hb, hab⟩
      have hidx : i - 18 + j - 1 = i - 19 + j := by omega
      rw [hidx] at ha
      exact ⟨a, b, ha, hb, hab⟩
    · rintro ⟨h19, hdiff, hvals⟩
      exact ⟨h19, by omega, hvals⟩
  · rw [if_neg hc]
    constructor
    · constructor
      · intro h
        exact absurd rfl h
      · rintro ⟨h19, hdiff, hvals⟩
        refine absurd (contigAt_iff.mpr ⟨by omega, hi, ?_⟩) hc
        intro j hj
        rcases hdiff j hj with ⟨a, b, ha, hb, hab⟩
        rw [gapAt_eq_one_iff]
        have hidx : i - 18 + j - 1 = i - 19 + j := by omega
        refine ⟨by omega, a, b, ?_, hb, hab⟩
        rw [hidx]
        exact ha
    · intro h
      exact absurd rfl h

theorem computeGroupStdev_getElem? (addGap : Bool) (grp : List SecRow) (i : Nat) :
    (computeGroupStdev addGap grp)[i]? =
      ((sortGroup grp)[i]?).map (outRowAt addGap (sortGroup grp) i) := by
  unfold computeGroupStdev
  rw [List.getElem?_map, List.enum, List.getElem?_enumFrom]
  cases (sortGroup grp)[i]? <;> simp

/-- C4 (amended): at every output row `i` of a group, each of the three
stdev cells is non-null exactly when row `i` has at least 19 predecessors in
the snap-time-sorted group, the 19 adjacent snap-time steps over rows
`i-19..i` are each exactly one hour, *and all 20 values of that field in
those rows are present*; a non-null cell carries the sample variance (the
square of the `n-1`-denominator sample standard deviation) of those 20
values. -/
theorem C4_stdev_characterization (grp : List SecRow) (i : Nat) (r : SecOutRow)
    (hr : (computeGroupStdev false grp)[i]? = some r) :
    fieldSpec ((sortGroup grp).map (fun x => x.snap_time))
      ((sortGroup grp).map (fun x => x.bid)) i r.bid_stdev ∧
    fieldSpec ((sortGroup grp).map (fun x => x.snap_time))
      ((sortGroup grp).map (fun x => x.mid)) i r.mid_stdev ∧
    fieldSpec ((sortGroup grp).map (fun x => x.snap_time))
      ((sortGroup grp).map (fun x => x.ask)) i r.ask_stdev := by
  rw [computeGroupStdev_getElem?] at hr
  cases hg : (sortGroup grp)[i]? with
  | none =>
      rw [hg] at hr
      exact Option.noConfusion hr
  | some row =>
      rw [hg] at hr
      obtain rfl := Option.some.inj hr
      have hi : i < ((sortGroup grp).map (fun x => x.snap_time)).length := by
        rw [List.length_map]
        by_contra hcon
        rw [List.getElem?_eq_none (by omega)] at hg
        exact Option.noConfusion hg
      rw [List.length_map] at hi
      refine ⟨?_, ?_, ?_⟩ <;>
        simpa [outRowAt] using
          maskedAt_fieldSpec (by simp) (by simpa using hi)

/-- C4 fails as stated: in a group of 20 hourly rows whose row-0 `bid` is
missing, row 19 has 19 predecessors and all 19 adjacent steps are exactly
one hour (the contiguity side of the claimed equivalence holds), yet
`bid_stdev` is null because only 19 of the 20 window values are present
(`min_periods=20` counts non-null values). -/
theorem C4_counterexample :
    ((computeGroupStdev false c4grp).map (fun r => r.bid_stdev))[19]? = some none ∧
    (List.range 19).all (fun j =>
      tsDiffIsHour ((c4grp.map (fun r => r.snap_time)).getD j none)
        ((c4grp.map (fun r => r.snap_time)).getD (j + 1) none)) = true ∧
    (computeGroupStdev false c4grp).length = 20 :=
  ⟨rfl, rfl, rfl⟩


/-- Witness for C4 at the fully contiguous, fully populated 20-row group:
row 19 carries non-null statistics satisfying the characterization. -/
theorem C4_witness :
    (computeGroupStdev false c4wgrp)[19]? = some c4wrow ∧
    fieldSpec (c4wgrp.map (fun x => x.snap_time)) (c4wgrp.map (fun x => x.bid)) 19
      c4wrow.bid_stdev := by
  have h1 : (computeGroupStdev false c4wgrp)[19]? = some c4wrow := rfl
  have h2 := (C4_stdev_characterization c4wgrp 19 c4wrow h1).1
  exact ⟨h1, h2⟩

/-! ### Claim theorem: C9 (group independence of the rolling engine) -/

theorem orderedInsert_eq_cons_of_forall {α : Type} (r : α → α → Prop) [DecidableRel r]
    {a : α} : ∀ {t : List α}, (∀ z ∈ t, r a z) → List.orderedInsert r a t = a :: t
  | [], _ => rfl
  | z :: zs, h => by
      simp only [List.orderedInsert]
      rw [if_pos (h z (List.mem_cons_self z zs))]

theorem filter_orderedInsert {α : Type} (r : α → α → Prop) [DecidableRel r] [IsTrans α r]
    (p : α → Bool) (a : α) :
    ∀ l : List α, l.Sorted r →
      (List.orderedInsert r a l).filter p =
        if p a then List.orderedInsert r a (l.filter p) else l.filter p := by
  intro l
  induction l with
  | nil =>
      intro _
      by_cases hpa : p a <;> simp [List.orderedInsert, List.filter_cons, hpa]
  | cons b t ih =>
      intro hs
      rcases List.sorted_cons.mp hs with ⟨hb, ht⟩
      by_cases hab : r a b
      · simp only [List.orderedInsert, if_pos hab]
        by_cases hpa : p a
        · by_cases hpb : p b
          · simp [List.filter_cons, hpa, hpb, List.orderedInsert, hab]
          · have hcons : List.orderedInsert r a (t.filter p) = a :: t.filter p :=
              orderedInsert_eq_cons_of_forall r (fun z hz =>
                IsTrans.trans a b z hab (hb z (List.mem_of_mem_filter hz)))
            simp [List.filter_cons, hpa, hpb, hcons]
        · simp [List.filter_cons, hpa]
      · simp only [List.orderedInsert, if_neg hab]
        rw [List.filter_cons, ih ht]
        by_cases hpa : p a <;> by_cases hpb : p b <;>
          simp [List.filter_cons, hpa, hpb, List.orderedInsert, hab]

theorem filter_insertionSort {α : Type} (r : α → α → Prop) [DecidableRel r]
    [IsTotal α r] [IsTrans α r] (p : α → Bool) :
    ∀ l : List α, (List.insertionSort r l).filter p = List.insertionSort r (l.filter p) := by
  intro l
  induction l with
  | nil => rfl
  | cons a t ih =>
      show (List.orderedInsert r a (List.insertionSort r t)).filter p = _
      rw [filter_orderedInsert r p a _ (List.sorted_insertionSort r t), List.filter_cons]
      cases hpa : p a
      · simp [ih]
      · simp [ih, List.insertionSort]

theorem sorted_eq_of_key_filter_eq {α : Type} (key : α → Nat) :
    ∀ l₁ l₂ : List α, l₁.Sorted (fun a b => key a ≤ key b) →
      l₂.Sorted (fun a b => key a ≤ key b) →
      (∀ g : Nat, l₁.filter (fun r => key r == g) = l₂.filter (fun r => key r == g)) →
      l₁ = l₂ := by
  intro l₁
  induction l₁ with
  | nil =>
      intro l₂ _ _ hf
      cases l₂ with
      | nil => rfl
      | cons b t₂ =>
          have h := hf (key b)
          simp only [List.filter_nil, List.filter_cons, beq_self_eq_true, if_true] at h
          exact List.noConfusion h
  | cons a t₁ ih =>
      intro l₂ hs₁ hs₂ hf
      cases l₂ with
      | nil =>
          have h := hf (key a)
          simp only [List.filter_nil, List.filter_cons, beq_self_eq_true, if_true] at h
          exact List.noConfusion h
      | cons b t₂ =>
          rcases List.sorted_cons.mp hs₁ with ⟨ha, ht₁⟩
          rcases List.sorted_cons.mp hs₂ with ⟨hb, ht₂⟩
          have hkey : key b = key a := by
            by_contra hne
            have h₁ := hf (key a)
            have h₂ := hf (key b)
            have e_ba : (key b == key a) = false := beq_eq_false_iff_ne.mpr hne
            have e_ab : (key a == key b) = false :=
              beq_eq_false_iff_ne.mpr (fun h => hne h.symm)
            simp [List.filter_cons, e_ba, e_ab] at h₁ h₂
            have hmem_a : a ∈ t₂ := by
              have hx : a ∈ t₂.filter (fun r => key r == key a) := by
                rw [← h₁]
                exact List.mem_cons_self _ _
              exact List.mem_of_mem_filter hx
            have hmem_b : b ∈ t₁ := by
              have hx : b ∈ t₁.filter (fun r => key r == key b) := by
                rw [h₂]
                exact List.mem_cons_self _ _
              exact List.mem_of_mem_filter hx
            exact hne (Nat.le_antisymm (hb a hmem_a) (ha b hmem_b))
          have h₁ := hf (key a)
          have e_ba : (key b == key a) = true := beq_iff_eq.mpr hkey
          simp [List.filter_cons, e_ba] at h₁
          rcases h₁ with ⟨hhead, htail⟩
          subst hhead
          refine congrArg (List.cons a) (ih t₂ ht₁ ht₂ ?_)
          intro g
          by_cases hg : key a = g
          · subst hg
            exact htail
          · have h := hf g
            have e1 : (key a == g) = false := beq_eq_false_iff_ne.mpr hg
            simp [List.filter_cons, e1] at h
            exact h

theorem insertionSort_stLe_eq {α : Type} (sec : α → Nat) (ts : α → Option Int)
    (l₁ l₂ : List α)
    (hf : ∀ g : Nat, l₁.filter (fun r => sec r == g) = l₂.filter (fun r => sec r == g)) :
    List.insertionSort (stLe sec ts) l₁ = List.insertionSort (stLe sec ts) l₂ := by
  apply sorted_eq_of_key_filter_eq sec
  · exact (List.sorted_insertionSort _ _).imp (fun h => stLe_sec h)
  · exact (List.sorted_insertionSort _ _).imp (fun h => stLe_sec h)
  · intro g
    rw [filter_insertionSort, filter_insertionSort, hf g]

/-- C9: the output of the rolling statistics pipeline depends on each
security group only through that group's own row sequence: two inputs whose
per-security row sequences agree (in particular, inputs differing only by a
shuffle of whole security blocks) produce identical outputs, and hence
identical per-group stdev columns. -/
theorem C9_group_shuffle_invariance (l₁ l₂ : List SecRow) (start stop : Int)
    (addGap : Bool)
    (hf : ∀ g : Nat, l₁.filter (fun r => r.security_id == g) =
      l₂.filter (fun r => r.security_id == g)) :
    stdevProcess l₁ start stop addGap = stdevProcess l₂ start stop addGap ∧
    ∀ g : Nat, (stdevProcess l₁ start stop addGap).filter
        (fun r => r.security_id == g) =
      (stdevProcess l₂ start stop addGap).filter (fun r => r.security_id == g) := by
  have hsort := insertionSort_stLe_eq (fun r : SecRow => r.security_id)
    (fun r => r.snap_time) l₁ l₂ hf
  have heq : stdevProcess l₁ start stop addGap = stdevProcess l₂ start stop addGap := by
    unfold stdevProcess
    rw [hsort]
  exact ⟨heq, fun g => by rw [heq]⟩

/-- Witness for C9: swapping the two security blocks of a concrete input
leaves the pipeline output unchanged. -/
theorem C9_witness :
    stdevProcess c9l1 0 7200 false = stdevProcess c9l2 0 7200 false := by
  refine (C9_group_shuffle_invariance c9l1 c9l2 0 7200 false ?_).1
  intro g
  by_cases h1 : g = 1
  · subst h1
    rfl
  by_cases h2 : g = 2
  · subst h2
    rfl
  · have e1 : ((1 : Nat) == g) = false := beq_eq_false_iff_ne.mpr (fun h => h1 h.symm)
    have e2 : ((2 : Nat) == g) = false := beq_eq_false_iff_ne.mpr (fun h => h2 h.symm)
    simp [c9l1, c9l2, List.filter_cons, e1, e2]

end Parameta
